import Mathlib

/-!
Verification development for the netidx resolver core: a shallow embedding of
the resolver server (resolver_server.rs), the reconnecting resolver client
(resolver.rs) and the stream batching combinator (utils.rs), together with
proofs about the embedded operations.

Modelling conventions: machine integers are Nat or Int, Instant and Duration
are whole seconds (Nat), the i64 ttl field of the client hello is Int.
HashMap and HashSet are association lists and duplicate free lists; BTreeSet
is a duplicate free list (no claim depends on its iteration order). Oneshot
channels are identified by a Nat; signalling a channel is modelled by
returning its identity in a list of signalled channels. Functions return
Option where the source can fail the session.

The modules path and resolver_store are declared by lib.rs but their sources
are not part of src/; the path predicate and the Store are therefore modelled
from the spec, as marked on each such definition.
-/

namespace Netidx

/-- Modelled from the spec: module path is not under src/. A Path is an
absolute, slash separated name, represented by its string. -/
abbrev Path := String

/-- Modelled from the spec: a path is absolute when it begins with a slash
(Path.is_absolute in the source); stated on the character data of the
string. -/
def Path.is_absolute (p : Path) : Bool := p.data.head? = some '/'

/-- A transport address (ip and port); equality is structural. -/
structure SocketAddr where
  ip : Nat
  port : Nat
  deriving DecidableEq, Repr

/-- Modelled from the spec: module resolver_store is not under src/. The
directory mutation kinds used by Store.change. -/
inductive Action where
  | Publish
  | Unpublish
  deriving DecidableEq, Repr

/-- Modelled from the spec: module resolver_store is not under src/. The
directory maps each path to an ordered set of endpoints (insertion order,
duplicates forbidden); it is represented as a duplicate free list of
(path, endpoint) pairs in insertion order. -/
abbrev Store := List (Path × SocketAddr)

/-- Modelled from the spec: exact lookup, returning the endpoint set at the
path in insertion order, empty when the path is absent. -/
def Store.resolve (s : Store) (p : Path) : List SocketAddr :=
  (s.filter (fun e => decide (e.1 = p))).map (fun e => e.2)

/-- Modelled from the spec: insert the endpoint into the set at the path, a
no-op when it is already present. -/
def Store.publishOne (s : Store) (p : Path) (a : SocketAddr) : Store :=
  if (p, a) ∈ s then s else s ++ [(p, a)]

/-- Modelled from the spec: remove the endpoint from the set at the path (an
entry whose set becomes empty disappears). -/
def Store.unpublishOne (s : Store) (p : Path) (a : SocketAddr) : Store :=
  s.filter (fun e => decide (e ≠ (p, a)))

/-- Modelled from the spec: apply a batch of directory changes in order. -/
def Store.change (s : Store) : List (Path × Action × SocketAddr) → Store
  | [] => s
  | (p, Action.Publish, a) :: rest => Store.change (Store.publishOne s p a) rest
  | (p, Action.Unpublish, a) :: rest => Store.change (Store.unpublishOne s p a) rest

/-- Modelled from the spec: all paths strictly under the given path,
lexicographically sorted and deduplicated. -/
def Store.list (s : Store) (pre : Path) : List Path :=
  List.insertionSort (fun a b => a ≤ b)
    (((s.map (fun e => e.1)).filter
      (fun p => decide (p ≠ pre) && pre.isPrefixOf p)).dedup)

/-- Client to server hello (resolver_server.rs); the ttl field is an i64. -/
inductive ClientHello where
  | ReadOnly
  | ReadWrite (ttl : Int) (write_addr : SocketAddr)
  deriving DecidableEq, Repr

/-- Server to client hello (resolver_server.rs). -/
structure ServerHello where
  ttl_expired : Bool
  deriving DecidableEq, Repr

/-- Requests (resolver_server.rs enum ToResolver). Resolve and List each carry
a single path; Publish and Unpublish carry a list of paths. -/
inductive ToResolver where
  | Resolve (p : Path)
  | List (p : Path)
  | Publish (paths : List Path)
  | Unpublish (paths : List Path)
  | Clear
  deriving DecidableEq, Repr

/-- Responses (resolver_server.rs enum FromResolver). Resolved carries a flat
list of endpoints. -/
inductive FromResolver where
  | Resolved (addrs : List SocketAddr)
  | List (paths : List Path)
  | Published
  | Unpublished
  | Error (msg : String)
  deriving DecidableEq, Repr

/-- Insertion into the duplicate free list model of a set of paths. -/
def setInsert (p : Path) (s : List Path) : List Path :=
  if p ∈ s then s else s ++ [p]

/-- Removal from the duplicate free list model of a set of paths. -/
def setRemove (p : Path) (s : List Path) : List Path :=
  s.filter (fun q => decide (q ≠ p))

/-- The per writer client record (resolver_server.rs struct ClientInfoInner):
the claimed write address, the ttl and last seen instant in seconds, the
published path set and the oneshot stop sender (by channel identity). -/
structure ClientInfoInner where
  addr : SocketAddr
  ttl : Nat
  last : Nat
  published : List Path
  stop : Option Nat
  deriving DecidableEq, Repr

/-- ClientInfo.new (resolver_server.rs): a fresh record whose last seen
instant is now and whose published set is empty. -/
def ClientInfoInner.new (addr : SocketAddr) (ttl : Nat) (now : Nat) (stop : Nat) :
    ClientInfoInner :=
  { addr := addr, ttl := ttl, last := now, published := [], stop := some stop }

/-- The shared server state (resolver_server.rs Context): the path directory
and the client registry keyed by write address. The stops table is session
bookkeeping used only at shutdown and is not modelled. -/
structure ContextInner where
  published : Store
  clients : List (SocketAddr × ClientInfoInner)
  deriving DecidableEq, Repr

/-- HashMap.get on the association list model of the client registry. -/
def lookupClient (clients : List (SocketAddr × ClientInfoInner)) (k : SocketAddr) :
    Option ClientInfoInner :=
  (clients.find? (fun e => decide (e.1 = k))).map (fun e => e.2)

/-- HashMap.insert (insert or replace) on the association list model. -/
def insertClient (clients : List (SocketAddr × ClientInfoInner)) (k : SocketAddr)
    (c : ClientInfoInner) : List (SocketAddr × ClientInfoInner) :=
  if (clients.find? (fun e => decide (e.1 = k))).isSome
  then clients.map (fun e => if e.1 = k then (k, c) else e)
  else clients ++ [(k, c)]

/-- HashMap.remove on the association list model. -/
def removeClient (clients : List (SocketAddr × ClientInfoInner)) (k : SocketAddr) :
    List (SocketAddr × ClientInfoInner) :=
  clients.filter (fun e => decide (e.1 ≠ k))

/-- Context.timeout_client (resolver_server.rs lines 116 to 123): swap out and
signal the stop channel, then remove every published path of the record from
the directory at the record address. Returns the directory after the change,
the record with its stop taken, and the signalled channels. -/
def Context.timeout_client (published : Store) (c : ClientInfoInner) :
    Store × ClientInfoInner × List Nat :=
  (Store.change published (c.published.map (fun p => (p, Action.Unpublish, c.addr))),
   { c with stop := none },
   c.stop.toList)

/-- Context.publish (resolver_server.rs lines 125 to 137): sort the paths;
when any path is relative answer the in band error, leaving the directory and
the record untouched (the check precedes every mutation); otherwise insert
the paths into the record and into the directory at the record address. -/
def Context.publish (published : Store) (paths : List Path) (c : ClientInfoInner) :
    FromResolver × Store × ClientInfoInner :=
  let paths := List.insertionSort (fun a b => a ≤ b) paths
  if ! paths.all (fun p => Path.is_absolute p) then
    (FromResolver.Error "publish relative path", published, c)
  else
    let c2 := { c with published := paths.foldl (fun s p => setInsert p s) c.published }
    (FromResolver.Published,
     Store.change published (paths.map (fun p => (p, Action.Publish, c2.addr))), c2)

/-- Context.unpublish (resolver_server.rs lines 139 to 148): sort the paths,
remove them from the record and from the directory at the record address;
there is no relative path check on this arm. -/
def Context.unpublish (published : Store) (paths : List Path) (c : ClientInfoInner) :
    FromResolver × Store × ClientInfoInner :=
  let paths := List.insertionSort (fun a b => a ≤ b) paths
  let c2 := { c with published := paths.foldl (fun s p => setRemove p s) c.published }
  (FromResolver.Unpublished,
   Store.change published (paths.map (fun p => (p, Action.Unpublish, c2.addr))), c2)

/-- The hello phase of handle_client (resolver_server.rs lines 170 to 194).
Returns none when the session closes before any server hello is written (a
ReadWrite ttl outside 1 to 3600). Otherwise returns the session record, the
client_added flag, the server hello, the registry after the hello and the
stop channels signalled during the hello. For a fresh write address the
record is created but NOT inserted into the registry (client_added is false
and insertion is deferred to the first write locked batch); for an existing
record the published set is kept, last is refreshed and the stop sender is
overwritten, which drops rather than signals the previous sender, so the
signalled list is empty on every arm. -/
def helloClient (now : Nat) (stopId : Nat) (peer : SocketAddr)
    (clients : List (SocketAddr × ClientInfoInner)) :
    ClientHello → Option (ClientInfoInner × Bool × ServerHello ×
      List (SocketAddr × ClientInfoInner) × List Nat)
  | ClientHello.ReadOnly =>
      some (ClientInfoInner.new peer 120 now stopId, false, ⟨false⟩, clients, [])
  | ClientHello.ReadWrite ttl write_addr =>
      if ttl ≤ 0 ∨ 3600 < ttl then none
      else
        match lookupClient clients write_addr with
        | none =>
            some (ClientInfoInner.new write_addr ttl.toNat now stopId, false,
              ⟨true⟩, clients, [])
        | some c =>
            let c2 := { c with last := now, stop := some stopId }
            some (c2, true, ⟨false⟩, insertClient clients write_addr c2, [])

/-- The InBatch arm of the session loop of handle_client (resolver_server.rs
lines 203 to 214): push the decoded request onto the batch, raising the
batch_needs_write_lock flag for Publish and Unpublish. The source match has
no arm for Clear, so a session that decodes Clear cannot proceed (none). -/
def accumBatch (batch : List ToResolver) (flag : Bool) :
    List ToResolver → Option (List ToResolver × Bool)
  | [] => some (batch, flag)
  | ToResolver.Resolve p :: ms => accumBatch (batch ++ [ToResolver.Resolve p]) flag ms
  | ToResolver.List p :: ms => accumBatch (batch ++ [ToResolver.List p]) flag ms
  | ToResolver.Publish ps :: ms => accumBatch (batch ++ [ToResolver.Publish ps]) true ms
  | ToResolver.Unpublish ps :: ms => accumBatch (batch ++ [ToResolver.Unpublish ps]) true ms
  | ToResolver.Clear :: _ => none

/-- The EndBatch read arm of handle_client (resolver_server.rs lines 240 to
254): execute the batch in arrival order under the shared lock, appending one
response per request; a Publish or Unpublish reaching this arm is the
unreachable branch (and Clear has no arm), modelled as none. -/
def processRead (published : Store) (resp : List FromResolver) :
    List ToResolver → Option (List FromResolver)
  | [] => some resp
  | ToResolver.Resolve p :: ms =>
      processRead published (resp ++ [FromResolver.Resolved (Store.resolve published p)]) ms
  | ToResolver.List p :: ms =>
      processRead published (resp ++ [FromResolver.List (Store.list published p)]) ms
  | _ :: _ => none

/-- The EndBatch write arm body of handle_client (resolver_server.rs lines
229 to 239): execute the batch in arrival order under the exclusive lock,
threading the directory and the record; Clear has no arm (none). -/
def processWrite (published : Store) (c : ClientInfoInner) (resp : List FromResolver) :
    List ToResolver → Option (List FromResolver × Store × ClientInfoInner)
  | [] => some (resp, published, c)
  | ToResolver.Resolve p :: ms =>
      processWrite published c (resp ++ [FromResolver.Resolved (Store.resolve published p)]) ms
  | ToResolver.List p :: ms =>
      processWrite published c (resp ++ [FromResolver.List (Store.list published p)]) ms
  | ToResolver.Publish ps :: ms =>
      match Context.publish published ps c with
      | (r, published2, c2) => processWrite published2 c2 (resp ++ [r]) ms
  | ToResolver.Unpublish ps :: ms =>
      match Context.unpublish published ps c with
      | (r, published2, c2) => processWrite published2 c2 (resp ++ [r]) ms
  | ToResolver.Clear :: _ => none

/-- The response drain loop of handle_client (resolver_server.rs lines 256 to
258): while let Some(m) = response.pop() sends the LAST accumulated response
first (Vec.pop removes from the back), so the wire carries the responses of
a batch in reverse arrival order. -/
def drainResponses (resp : List FromResolver) : List FromResolver := resp.reverse

/-- One EndBatch step of handle_client (resolver_server.rs lines 216 to 259).
Under the write lock: refresh last, perform the deferred registry insertion
on the first write locked batch (a ReadOnly session reaching the write arm
fails), execute the batch and write back the record (the registry holds a
shared handle to the record, so it always reflects the final record).
Under the read lock: refresh last and execute the read only batch (the
refresh reaches the registry only when the record has been added). The first
component of the result is the wire output, drained by pop and therefore in
reverse arrival order. -/
def endBatch (now : Nat) (hello : ClientHello) (ctx : ContextInner)
    (c : ClientInfoInner) (added : Bool) (flag : Bool) (batch : List ToResolver) :
    Option (List FromResolver × ContextInner × ClientInfoInner × Bool) :=
  if flag then
    let c2 := { c with last := now }
    match hello, added with
    | ClientHello.ReadOnly, false => none
    | _, _ =>
      match processWrite ctx.published c2 [] batch with
      | none => none
      | some (resp, published2, c3) =>
        let clients2 :=
          match hello with
          | ClientHello.ReadWrite _ write_addr => insertClient ctx.clients write_addr c3
          | ClientHello.ReadOnly => ctx.clients
        some (drainResponses resp, { published := published2, clients := clients2 }, c3, true)
  else
    let c2 := { c with last := now }
    match processRead ctx.published [] batch with
    | none => none
    | some resp =>
      let clients2 :=
        if added then
          match hello with
          | ClientHello.ReadWrite _ write_addr => insertClient ctx.clients write_addr c2
          | ClientHello.ReadOnly => ctx.clients
        else ctx.clients
      some (drainResponses resp, { ctx with clients := clients2 }, c2, added)

/-- The tick body of client_scavenger (resolver_server.rs lines 293 to 302)
over the snapshot of the registry: a record with now minus last strictly
greater than ttl is timed out (Context.timeout_client) and its id collected
for deletion; other records are untouched. Returns the directory after all
changes, the signalled stop channels and the ids to delete. -/
def scavengeList (now : Nat) (published : Store) :
    List (SocketAddr × ClientInfoInner) → Store × List Nat × List SocketAddr
  | [] => (published, [], [])
  | (id, c) :: rest =>
      if c.ttl < now - c.last then
        let r := Context.timeout_client published c
        let r2 := scavengeList now r.1 rest
        (r2.1, r.2.2 ++ r2.2.1, id :: r2.2.2)
      else scavengeList now published rest

/-- One tick of client_scavenger (resolver_server.rs lines 293 to 303): run
the snapshot pass, then remove every collected id from the registry. Returns
the new state and the signalled stop channels. -/
def scavengeTick (now : Nat) (ctx : ContextInner) : ContextInner × List Nat :=
  let r := scavengeList now ctx.published ctx.clients
  ({ published := r.1,
     clients := r.2.2.foldl (fun cs id => removeClient cs id) ctx.clients }, r.2.1)

/-- One connection attempt of connect (resolver.rs lines 120 to 157), from
the point where the client hello has been sent: given the outcome of reading
the server hello (none is a read failure) and the outcome of reading the
reply to a republish, return whether this attempt leaves the retry loop with
a usable connection, together with the requests sent after the server hello.
When ttl_expired is false the attempt succeeds at once sending nothing; when
it is true the client sends Publish of its published set and succeeds only
on a Published reply. -/
def connectAttempt (published : List Path) (helloRes : Option ServerHello)
    (pubReply : Option FromResolver) : Bool × List ToResolver :=
  match helloRes with
  | none => (false, [])
  | some h =>
      if ! h.ttl_expired then (true, [])
      else
        match pubReply with
        | some FromResolver.Published => (true, [ToResolver.Publish published])
        | _ => (false, [ToResolver.Publish published])

/-- The reply handling of the connection task (resolver.rs lines 194 to 204):
on a Published reply to a Publish request the paths are merged into the
published set before the caller is acknowledged; no other reply changes the
set (in particular an Unpublished reply to an Unpublish request removes
nothing from it). -/
def updatePublished (published : List Path) (m : ToResolver) (r : FromResolver) :
    List Path :=
  match r with
  | FromResolver.Published =>
      match m with
      | ToResolver.Publish ps => ps.foldl (fun s p => setInsert p s) published
      | _ => published
  | _ => published

/-- Items of the batched stream (utils.rs enum BatchItem). -/
inductive BatchItem (T : Type) where
  | InBatch (t : T)
  | EndBatch
  deriving DecidableEq, Repr

/-- The state of the Batched combinator (utils.rs struct Batched): the inner
stream is kept separate, see pollNext. -/
structure BatchedState where
  ended : Bool
  max : Nat
  current : Nat
  deriving DecidableEq, Repr

/-- One poll outcome of the inner stream: an immediately ready item or a
pending; the exhausted trace is end of stream. -/
inductive InnerPoll (T : Type) where
  | item (t : T)
  | pending
  deriving DecidableEq, Repr

/-- Result of one poll of the batched stream. -/
inductive PollOut (T : Type) where
  | ready (v : Option (BatchItem T))
  | pending
  deriving DecidableEq, Repr

/-- Batched.poll_next (utils.rs lines 354 to 385) as a pure step. The inner
stream is a trace of poll outcomes consumed one per inner poll. Returns the
poll result, the successor state and the remaining trace. -/
def pollNext {T : Type} (st : BatchedState) (inner : List (InnerPoll T)) :
    PollOut T × BatchedState × List (InnerPoll T) :=
  if st.ended then (PollOut.ready none, st, inner)
  else if st.max ≤ st.current then
    (PollOut.ready (some BatchItem.EndBatch), { st with current := 0 }, inner)
  else
    match inner with
    | InnerPoll.item v :: rest =>
        (PollOut.ready (some (BatchItem.InBatch v)),
         { st with current := st.current + 1 }, rest)
    | InnerPoll.pending :: rest =>
        if st.current = 0 then (PollOut.pending, st, rest)
        else (PollOut.ready (some BatchItem.EndBatch), { st with current := 0 }, rest)
    | [] =>
        if st.current = 0 then (PollOut.ready none, { st with ended := true }, [])
        else (PollOut.ready (some BatchItem.EndBatch),
              { st with ended := true, current := 0 }, [])

/-- Drive the batched stream: poll repeatedly, collecting the emitted items
until the stream reports end (fuel bounds the number of polls; any fuel of
at least twice the trace length plus two completes the run when max is at
least one). -/
def runBatched {T : Type} (fuel : Nat) (st : BatchedState)
    (inner : List (InnerPoll T)) : List (BatchItem T) :=
  match fuel with
  | 0 => []
  | fuel + 1 =>
    match pollNext st inner with
    | (PollOut.ready none, _, _) => []
    | (PollOut.ready (some x), st2, rest) => x :: runBatched fuel st2 rest
    | (PollOut.pending, st2, rest) => runBatched fuel st2 rest

/-- The items carried by an inner trace, in order. -/
def innerItems {T : Type} : List (InnerPoll T) → List T
  | [] => []
  | InnerPoll.item v :: rest => v :: innerItems rest
  | InnerPoll.pending :: rest => innerItems rest

/-- The items carried by a batched output, in order. -/
def itemsOf {T : Type} : List (BatchItem T) → List T
  | [] => []
  | BatchItem.InBatch v :: rest => v :: itemsOf rest
  | BatchItem.EndBatch :: rest => itemsOf rest

/-- The sizes of the batches closed by EndBatch markers, starting from a
partial count of items already in the open batch. -/
def batchSizes {T : Type} (cur : Nat) : List (BatchItem T) → List Nat
  | [] => []
  | BatchItem.InBatch _ :: rest => batchSizes (cur + 1) rest
  | BatchItem.EndBatch :: rest => cur :: batchSizes 0 rest

/-- Reference run of the batching discipline, by structural recursion on the
inner trace: an item is emitted and closes its batch as soon as the count
reaches max; a pending closes a nonempty batch; end of trace closes a
nonempty batch and stops. Proved equal to runBatched below. -/
def specRun {T : Type} (max cur : Nat) : List (InnerPoll T) → List (BatchItem T)
  | [] => if cur = 0 then [] else [BatchItem.EndBatch]
  | InnerPoll.item v :: rest =>
      if max ≤ cur + 1 then
        BatchItem.InBatch v :: BatchItem.EndBatch :: specRun max 0 rest
      else BatchItem.InBatch v :: specRun max (cur + 1) rest
  | InnerPoll.pending :: rest =>
      if cur = 0 then specRun max cur rest
      else BatchItem.EndBatch :: specRun max 0 rest

/-- A request the read only arm can execute. -/
def isReadOnlyReq : ToResolver → Bool
  | ToResolver.Resolve _ => true
  | ToResolver.List _ => true
  | _ => false

/-- Concrete endpoints and records used by the concrete evaluations. -/
def addr1 : SocketAddr := ⟨1, 9000⟩

/-- A second concrete endpoint. -/
def addr2 : SocketAddr := ⟨2, 9000⟩

/-- A concrete writer address. -/
def waddr : SocketAddr := ⟨10, 9000⟩

/-- A concrete peer address. -/
def peer0 : SocketAddr := ⟨99, 1⟩

/-- A concrete fresh client record. -/
def cRec : ClientInfoInner := ClientInfoInner.new waddr 60 0 0

/-- A concrete pre-existing client record holding a stop channel. -/
def cOld : ClientInfoInner :=
  { addr := waddr, ttl := 600, last := 1, published := ["/a/b"], stop := some 3 }

/-- The empty server state. -/
def ctx0 : ContextInner := { published := [], clients := [] }

/-- A concrete directory where two publishers serve the same path. -/
def s2pub : Store := [("/a/b", addr1), ("/a/b", addr2)]

/-- A concrete record that is long expired at instant 1000. -/
def cExp : ClientInfoInner :=
  { addr := addr1, ttl := 60, last := 0, published := ["/a/b"], stop := some 5 }

/-- A concrete server state holding the expired record and its path. -/
def ctxExp : ContextInner :=
  { published := [("/a/b", addr1)], clients := [(addr1, cExp)] }

/-- Membership in a resolve result is membership of the pair in the
directory. -/
theorem mem_resolve {s : Store} {p : Path} {a : SocketAddr} :
    a ∈ Store.resolve s p ↔ (p, a) ∈ s := by
  simp only [Store.resolve, List.mem_map, List.mem_filter, decide_eq_true_eq]
  constructor
  · rintro ⟨⟨x, y⟩, ⟨he, h1⟩, h2⟩
    simp only at h1 h2
    subst h1; subst h2; exact he
  · intro h; exact ⟨(p, a), ⟨h, rfl⟩, rfl⟩

/-- Executing a batch of single path Resolve requests appends one Resolved
response per path, in order. -/
theorem processRead_map_resolve (t : Store) :
    ∀ (ps : List Path) (resp : List FromResolver),
      processRead t resp (ps.map ToResolver.Resolve) =
        some (resp ++ ps.map (fun q => FromResolver.Resolved (Store.resolve t q))) := by
  intro ps
  induction ps with
  | nil => intro resp; simp [processRead]
  | cons p rest ih =>
      intro resp
      simp only [List.map_cons, processRead, ih, List.append_assoc, List.cons_append,
        List.nil_append]

/-- C1: REFUTED on the code (code bug). The claim says the i-th response on
the wire corresponds to the i-th request of the batch; the drain loop of
handle_client uses Vec.pop, which removes from the back of the response
vector, so the wire carries the responses of a batch in reverse arrival
order. Concretely, for the read only batch of a Resolve of /a followed by a
List of /b on the empty directory, the in order responses are Resolved then
List, but the wire output of endBatch is List then Resolved. -/
theorem c1_wire_reversed :
    (endBatch 0 ClientHello.ReadOnly ctx0 cRec false false
        [ToResolver.Resolve "/a", ToResolver.List "/b"]).map (fun r => r.1) =
      some [FromResolver.List [], FromResolver.Resolved []] ∧
    ([FromResolver.List [], FromResolver.Resolved []] : List FromResolver) ≠
      [FromResolver.Resolved [], FromResolver.List []] :=
  ⟨by decide, by decide⟩

/-- C2: REFUTED on the code (code bug). After a successful Publish of /a and
a successful Unpublish of /a the claim says the published set of the client
is empty again, but the connection task of resolver.rs merges paths into the
set only on a Published reply and removes nothing on an Unpublished reply,
so the set still holds /a, and a republish after ttl expiry would resend
it. -/
theorem c2_unpublished_kept :
    updatePublished
        (updatePublished [] (ToResolver.Publish ["/a"]) FromResolver.Published)
        (ToResolver.Unpublish ["/a"]) FromResolver.Unpublished = ["/a"] ∧
    (["/a"] : List Path) ≠ [] :=
  ⟨by decide, by decide⟩

/-- C3: CONFIRMED. In a connection attempt that read a server hello: if
ttl_expired is false the attempt yields a usable connection at once and
sends nothing after the hello; if ttl_expired is true the client sends
exactly Publish of its published set, and the attempt yields a usable
connection exactly when the reply to that republish is Published. -/
theorem c3_republish_on_expired (published : List Path) (r : Option FromResolver) :
    connectAttempt published (some ⟨false⟩) r = (true, []) ∧
    (connectAttempt published (some ⟨true⟩) r).2 = [ToResolver.Publish published] ∧
    ((connectAttempt published (some ⟨true⟩) r).1 = true ↔
      r = some FromResolver.Published) := by
  refine ⟨rfl, ?_, ?_⟩
  · cases r with
    | none => rfl
    | some v => cases v <;> rfl
  · cases r with
    | none => simp [connectAttempt]
    | some v => cases v <;> simp [connectAttempt]

/-- C5: counterexample. A Publish of the relative path a/b answers the in
band Error whose message is publish relative path, not relative path as the
claim states; and an Unpublish of the same relative path is not rejected at
all: it answers Unpublished. -/
theorem c5_counterexample :
    Context.publish [] ["a/b"] cRec =
      (FromResolver.Error "publish relative path", [], cRec) ∧
    FromResolver.Error "publish relative path" ≠ FromResolver.Error "relative path" ∧
    (Context.unpublish [] ["a/b"] cRec).1 = FromResolver.Unpublished :=
  ⟨by decide, by decide, rfl⟩

/-- C7: counterexample. In the source the Resolve message carries a single
path and the Resolved response carries a flat endpoint list, not one list of
endpoints per requested path: on the directory where two publishers serve
the path /a/b, the Resolve request for the single path /a/b is answered by a
Resolved payload with two entries (the two endpoints), so the payload does
not consist of one entry per requested path. -/
theorem c7_counterexample :
    processRead s2pub [] [ToResolver.Resolve "/a/b"] =
      some [FromResolver.Resolved [addr1, addr2]] ∧
    ([addr1, addr2] : List SocketAddr).length ≠ 1 :=
  ⟨by decide, by decide⟩

/-- C7 amended: the Resolve request carries a single path and the Resolved
response carries the endpoint list of exactly that path, the empty list when
the path is not in the directory; a multi path lookup is a sequence of
single path Resolve requests answered by one Resolved response each, in
parallel order within the in order response list of the batch. -/
theorem c7_amended (t : Store) (ps : List Path) (p : Path)
    (h : p ∉ t.map Prod.fst) :
    processRead t [] (ps.map ToResolver.Resolve) =
      some (ps.map (fun q => FromResolver.Resolved (Store.resolve t q))) ∧
    Store.resolve t p = [] := by
  constructor
  · simpa using processRead_map_resolve t ps []
  · have : ∀ a : SocketAddr, a ∉ Store.resolve t p := by
      intro a ha
      exact h (List.mem_map.2 ⟨(p, a), mem_resolve.1 ha, rfl⟩)
    cases hr : Store.resolve t p with
    | nil => rfl
    | cons a rest => exact absurd (hr ▸ List.mem_cons_self a rest) (this a)

/-- Witness for c7_amended on the concrete two publisher directory. -/
theorem c7_amended_witness :
    ("/zz" : Path) ∉ s2pub.map Prod.fst ∧
    (processRead s2pub [] (["/a/b", "/zz"].map ToResolver.Resolve) =
        some (["/a/b", "/zz"].map
          (fun q => FromResolver.Resolved (Store.resolve s2pub q))) ∧
      Store.resolve s2pub "/zz" = []) :=
  ⟨by decide, c7_amended s2pub ["/a/b", "/zz"] "/zz" (by decide)⟩

/-- C8: CONFIRMED. A ReadWrite hello is accepted (the hello phase produces a
server hello rather than closing the session) exactly when the ttl lies
between 1 and 3600 seconds inclusive; out of range values, including zero
and negative ttls, close the session before any server hello is sent (the
none result of helloClient is the close before the send of the server
hello). -/
theorem c8_ttl_bounds (now stopId : Nat) (peer w : SocketAddr)
    (clients : List (SocketAddr × ClientInfoInner)) (ttl : Int) :
    (helloClient now stopId peer clients (ClientHello.ReadWrite ttl w)).isSome ↔
      (1 ≤ ttl ∧ ttl ≤ 3600) := by
  unfold helloClient
  by_cases h : ttl ≤ 0 ∨ 3600 < ttl
  · simp only [if_pos h, Option.isSome_none, Bool.false_eq_true, false_iff]
    omega
  · simp only [if_neg h]
    cases hl : lookupClient clients w <;> simp <;> omega

/-- Looking up the inserted key finds the inserted record. -/
theorem lookupClient_insertClient_self (k : SocketAddr) (c : ClientInfoInner) :
    ∀ cls, lookupClient (insertClient cls k c) k = some c := by
  intro cls
  induction cls with
  | nil => simp [insertClient, lookupClient, List.find?]
  | cons e rest ih =>
    by_cases he : e.1 = k
    · simp [insertClient, lookupClient, List.find?, he]
    · have hstep : insertClient (e :: rest) k c = e :: insertClient rest k c := by
        by_cases hf : (rest.find? (fun x => decide (x.1 = k))).isSome
        · simp [insertClient, List.find?, he, hf]
        · simp [insertClient, List.find?, he, hf]
      rw [hstep]
      have hskip : lookupClient (e :: insertClient rest k c) k =
          lookupClient (insertClient rest k c) k := by
        simp [lookupClient, List.find?, he]
      rw [hskip]; exact ih

/-- C6: counterexample. With an empty registry, a ReadWrite hello for the
write address waddr allocates a record but does NOT insert it into the
registry at hello time: the registry component of the hello result is still
the empty list. And with an existing record holding stop channel 3, the
hello replaces the stop sender without signalling it: the signalled list of
the hello result is empty. -/
theorem c6_counterexample :
    (helloClient 5 7 peer0 [] (ClientHello.ReadWrite 600 waddr)).map
        (fun r => r.2.2.2.1) = some [] ∧
    (helloClient 5 7 peer0 [(waddr, cOld)] (ClientHello.ReadWrite 600 waddr)).map
        (fun r => r.2.2.2.2) = some [] :=
  ⟨by decide, by decide⟩

/-- C6 amended: for a ReadWrite hello with in range ttl and write address w:
if no record for w exists, a fresh record (empty published set) is allocated,
the hello reports ttl_expired true, and the registry is left unchanged at
hello time, the insertion being deferred to the first write locked batch of
the session, after which the registry holds the record under w; if a record
for w exists, its published set is reused, last is refreshed, its stop
sender is replaced (the old sender is dropped, not signalled: no channel is
signalled by the hello), the registry reflects the refreshed record and the
hello reports ttl_expired false. -/
theorem c6_amended (now stopId : Nat) (peer w : SocketAddr)
    (clients : List (SocketAddr × ClientInfoInner)) (ttl : Int)
    (h1 : 1 ≤ ttl) (h2 : ttl ≤ 3600) :
    (lookupClient clients w = none →
      helloClient now stopId peer clients (ClientHello.ReadWrite ttl w) =
        some (ClientInfoInner.new w ttl.toNat now stopId, false, ⟨true⟩, clients, [])) ∧
    (∀ c, lookupClient clients w = some c →
      helloClient now stopId peer clients (ClientHello.ReadWrite ttl w) =
        some ({ c with last := now, stop := some stopId }, true, ⟨false⟩,
          insertClient clients w { c with last := now, stop := some stopId }, [])) ∧
    (∀ ctx c batch resp ctx2 c2 added2,
      endBatch now (ClientHello.ReadWrite ttl w) ctx c false true batch =
        some (resp, ctx2, c2, added2) →
      lookupClient ctx2.clients w = some c2 ∧ added2 = true) := by
  have hcond : ¬ (ttl ≤ 0 ∨ 3600 < ttl) := by omega
  refine ⟨?_, ?_, ?_⟩
  · intro hl; simp [helloClient, hcond, hl]
  · intro c hl; simp [helloClient, hcond, hl]
  · intro ctx c batch resp ctx2 c2 added2 hend
    simp only [endBatch, if_true] at hend
    rcases hpw : processWrite ctx.published { c with last := now } [] batch with
      _ | ⟨r0, pub2, c3⟩
    · rw [hpw] at hend; simp at hend
    · rw [hpw] at hend
      simp only [Option.some.injEq, Prod.mk.injEq] at hend
      obtain ⟨-, hctx, hc, hadd⟩ := hend
      subst hctx; subst hc; subst hadd
      exact ⟨lookupClient_insertClient_self w c3 ctx.clients, rfl⟩

/-- Witness for c6_amended: the empty registry for the fresh arm, the one
record registry for the existing arm, and a concrete first write batch. -/
theorem c6_amended_witness :
    (1 ≤ (600 : Int) ∧ (600 : Int) ≤ 3600) ∧
    ((lookupClient [] waddr = none →
      helloClient 5 7 peer0 [] (ClientHello.ReadWrite 600 waddr) =
        some (ClientInfoInner.new waddr (600 : Int).toNat 5 7, false, ⟨true⟩, [], [])) ∧
    (∀ c, lookupClient [] waddr = some c →
      helloClient 5 7 peer0 [] (ClientHello.ReadWrite 600 waddr) =
        some ({ c with last := 5, stop := some 7 }, true, ⟨false⟩,
          insertClient [] waddr { c with last := 5, stop := some 7 }, [])) ∧
    (∀ ctx c batch resp ctx2 c2 added2,
      endBatch 5 (ClientHello.ReadWrite 600 waddr) ctx c false true batch =
        some (resp, ctx2, c2, added2) →
      lookupClient ctx2.clients waddr = some c2 ∧ added2 = true)) :=
  ⟨⟨by decide, by decide⟩, c6_amended 5 7 peer0 waddr [] 600 (by decide) (by decide)⟩

/-- Once the write flag is raised it stays raised for the rest of the
accumulation. -/
theorem accumBatch_true (ms : List ToResolver) :
    ∀ b0 b flag, accumBatch b0 true ms = some (b, flag) → flag = true := by
  induction ms with
  | nil =>
    intro b0 b flag h
    simp only [accumBatch, Option.some.injEq, Prod.mk.injEq] at h
    exact h.2.symm
  | cons m rest ih =>
    intro b0 b flag h
    cases m <;> simp only [accumBatch] at h <;> first
      | exact ih _ _ _ h
      | simp at h

/-- A batch accumulated with the flag still low holds only read only
requests. -/
theorem accumBatch_readonly (ms : List ToResolver) :
    ∀ b0 b, (∀ m ∈ b0, isReadOnlyReq m = true) →
      accumBatch b0 false ms = some (b, false) →
      ∀ m ∈ b, isReadOnlyReq m = true := by
  induction ms with
  | nil =>
    intro b0 b h0 h
    simp only [accumBatch, Option.some.injEq, Prod.mk.injEq] at h
    obtain ⟨h1, -⟩ := h
    subst h1; exact h0
  | cons m rest ih =>
    intro b0 b h0 h
    cases m with
    | Resolve p =>
      refine ih _ _ ?_ h
      intro x hx
      rcases List.mem_append.1 hx with hx | hx
      · exact h0 x hx
      · simp at hx; subst hx; rfl
    | List p =>
      refine ih _ _ ?_ h
      intro x hx
      rcases List.mem_append.1 hx with hx | hx
      · exact h0 x hx
      · simp at hx; subst hx; rfl
    | Publish ps =>
      have := accumBatch_true rest _ _ _ h
      simp at this
    | Unpublish ps =>
      have := accumBatch_true rest _ _ _ h
      simp at this
    | Clear => simp [accumBatch] at h

/-- The read arm executes every read only batch completely: it answers with
some response list and never reaches the unreachable arm. -/
theorem processRead_isSome (t : Store) :
    ∀ (b : List ToResolver), (∀ m ∈ b, isReadOnlyReq m = true) →
      ∀ resp, (processRead t resp b).isSome := by
  intro b
  induction b with
  | nil => intro h resp; simp [processRead]
  | cons m rest ih =>
    intro h resp
    have hm := h m (List.mem_cons_self m rest)
    have hrest : ∀ x ∈ rest, isReadOnlyReq x = true :=
      fun x hx => h x (List.mem_cons_of_mem m hx)
    cases m with
    | Resolve p => simpa [processRead] using ih hrest _
    | List p => simpa [processRead] using ih hrest _
    | Publish ps => simp [isReadOnlyReq] at hm
    | Unpublish ps => simp [isReadOnlyReq] at hm
    | Clear => simp [isReadOnlyReq] at hm

/-- C10: CONFIRMED. A batch accumulated from the start of a batch window
(empty batch, flag low) whose batch_needs_write_lock flag is still low at
EndBatch holds only Resolve and List requests, and the read arm therefore
executes it completely: the unreachable write lock required branch (the none
arm of processRead) is never taken on such a batch. -/
theorem c10_read_only_batch (t : Store) (ms b : List ToResolver)
    (h : accumBatch [] false ms = some (b, false)) :
    (∀ m ∈ b, isReadOnlyReq m = true) ∧ (processRead t [] b).isSome := by
  have hro := accumBatch_readonly ms [] b (by simp) h
  exact ⟨hro, processRead_isSome t b hro []⟩

/-- Witness for c10_read_only_batch on a concrete one request window. -/
theorem c10_read_only_batch_witness :
    accumBatch [] false [ToResolver.Resolve "/a"] =
      some ([ToResolver.Resolve "/a"], false) ∧
    ((∀ m ∈ [ToResolver.Resolve "/a"], isReadOnlyReq m = true) ∧
      (processRead [] [] [ToResolver.Resolve "/a"]).isSome) :=
  ⟨by decide,
   c10_read_only_batch [] [ToResolver.Resolve "/a"] [ToResolver.Resolve "/a"] (by decide)⟩

/-- Membership after removing one endpoint from one path. -/
theorem mem_unpublishOne {e : Path × SocketAddr} {s : Store} {p : Path}
    {a : SocketAddr} :
    e ∈ Store.unpublishOne s p a ↔ e ∈ s ∧ e ≠ (p, a) := by
  simp [Store.unpublishOne, List.mem_filter]

/-- A change consisting only of Unpublish actions never adds a pair. -/
theorem mem_change_unpub {e : Path × SocketAddr} :
    ∀ (ops : List (Path × Action × SocketAddr)) (s : Store),
      (∀ op ∈ ops, op.2.1 = Action.Unpublish) →
      e ∈ Store.change s ops → e ∈ s := by
  intro ops
  induction ops with
  | nil => intro s h hm; exact hm
  | cons op rest ih =>
    intro s h hm
    rcases op with ⟨p, act, a⟩
    cases act with
    | Publish =>
      have := h (p, Action.Publish, a) (List.mem_cons_self _ _)
      simp at this
    | Unpublish =>
      have hrest : ∀ op ∈ rest, op.2.1 = Action.Unpublish :=
        fun op hop => h op (List.mem_cons_of_mem _ hop)
      have := ih (Store.unpublishOne s p a) hrest hm
      exact (mem_unpublishOne.1 this).1

/-- Unpublishing every path of a set at an address removes the pair for each
path of the set. -/
theorem not_mem_change_unpub_self {p : Path} {a : SocketAddr} :
    ∀ (pubs : List Path) (s : Store), p ∈ pubs →
      (p, a) ∉ Store.change s (pubs.map (fun q => (q, Action.Unpublish, a))) := by
  intro pubs
  induction pubs with
  | nil => intro s h; simp at h
  | cons q rest ih =>
    intro s hmem hin
    have hrest : ∀ op ∈ rest.map (fun q => (q, Action.Unpublish, a)),
        op.2.1 = Action.Unpublish := by
      intro op hop
      rcases List.mem_map.1 hop with ⟨x, -, hx⟩
      subst hx; rfl
    rcases List.mem_cons.1 hmem with hpq | hmem2
    · subst hpq
      have : (p, a) ∈ Store.unpublishOne s p a :=
        mem_change_unpub _ _ hrest hin
      exact (mem_unpublishOne.1 this).2 rfl
    · exact ih (Store.unpublishOne s q a) hmem2 hin

/-- Removal from the duplicate free set model removes exactly the given
path. -/
theorem mem_setRemove {q p : Path} {s : List Path} :
    q ∈ setRemove p s ↔ q ∈ s ∧ q ≠ p := by
  simp [setRemove, List.mem_filter]

/-- Folding setRemove over a list of paths removes exactly those paths. -/
theorem mem_foldl_setRemove :
    ∀ (l : List Path) (s : List Path) (q : Path),
      q ∈ l.foldl (fun acc p => setRemove p acc) s ↔ (q ∈ s ∧ q ∉ l) := by
  intro l
  induction l with
  | nil => intro s q; simp
  | cons p rest ih =>
    intro s q
    rw [List.foldl_cons, ih, mem_setRemove]
    constructor
    · rintro ⟨⟨hs, hne⟩, hnr⟩
      refine ⟨hs, ?_⟩
      simp only [List.mem_cons, not_or]
      exact ⟨hne, hnr⟩
    · rintro ⟨hs, hnc⟩
      simp only [List.mem_cons, not_or] at hnc
      exact ⟨⟨hs, hnc.1⟩, hnc.2⟩

/-- C5 amended: for every Publish request containing a relative path the
server answers the in band response Error with message publish relative
path and leaves the directory and the client record completely unchanged
(the session continues, the answer being in band); Unpublish requests are
not path validated: such a request still answers Unpublished and removes the
listed paths, both from the published set of the client record (a path stays
exactly when it was there and is not listed) and from the directory at the
record address. -/
theorem c5_amended (s : Store) (paths : List Path) (c : ClientInfoInner)
    (h : ∃ p ∈ paths, Path.is_absolute p = false) :
    Context.publish s paths c = (FromResolver.Error "publish relative path", s, c) ∧
    (Context.unpublish s paths c).1 = FromResolver.Unpublished ∧
    (∀ q, q ∈ (Context.unpublish s paths c).2.2.published ↔
      (q ∈ c.published ∧ q ∉ paths)) ∧
    (∀ p ∈ paths, c.addr ∉ Store.resolve (Context.unpublish s paths c).2.1 p) := by
  refine ⟨?_, rfl, ?_, ?_⟩
  · obtain ⟨p, hp, habs⟩ := h
    have hmem : p ∈ List.insertionSort (fun a b => a ≤ b) paths :=
      (List.mem_insertionSort _).2 hp
    have hall : (List.insertionSort (fun a b => a ≤ b) paths).all
        (fun q => Path.is_absolute q) = false := by
      rw [List.all_eq_false]
      exact ⟨p, hmem, by simp [habs]⟩
    simp only [Context.publish, hall]
    simp
  · intro q
    show q ∈ (List.insertionSort (fun a b => a ≤ b) paths).foldl
        (fun acc p => setRemove p acc) c.published ↔ _
    rw [mem_foldl_setRemove]
    simp [List.mem_insertionSort]
  · intro p hp
    show c.addr ∉ Store.resolve
      (Store.change s ((List.insertionSort (fun a b => a ≤ b) paths).map
        (fun q => (q, Action.Unpublish, c.addr)))) p
    intro hres
    exact not_mem_change_unpub_self _ s ((List.mem_insertionSort _).2 hp)
      (mem_resolve.1 hres)

/-- Witness for c5_amended at the concrete relative path a/b. -/
theorem c5_amended_witness :
    (∃ p ∈ (["a/b"] : List Path), Path.is_absolute p = false) ∧
    (Context.publish [] ["a/b"] cRec =
        (FromResolver.Error "publish relative path", [], cRec) ∧
      (Context.unpublish [] ["a/b"] cRec).1 = FromResolver.Unpublished ∧
      (∀ q, q ∈ (Context.unpublish [] ["a/b"] cRec).2.2.published ↔
        (q ∈ cRec.published ∧ q ∉ (["a/b"] : List Path))) ∧
      (∀ p ∈ (["a/b"] : List Path),
        cRec.addr ∉ Store.resolve (Context.unpublish [] ["a/b"] cRec).2.1 p)) :=
  ⟨by decide, c5_amended [] ["a/b"] cRec (by decide)⟩

/-- The scavenger pass only shrinks the directory. -/
theorem scavengeList_store_subset {e : Path × SocketAddr} (now : Nat) :
    ∀ (cls : List (SocketAddr × ClientInfoInner)) (pub : Store),
      e ∈ (scavengeList now pub cls).1 → e ∈ pub := by
  intro cls
  induction cls with
  | nil => intro pub h; exact h
  | cons ec rest ih =>
    intro pub h
    rcases ec with ⟨id, c⟩
    by_cases hexp : c.ttl < now - c.last
    · simp only [scavengeList, if_pos hexp] at h
      have h2 := ih _ h
      refine mem_change_unpub _ _ ?_ h2
      intro op hop
      rcases List.mem_map.1 hop with ⟨x, -, hx⟩
      subst hx; rfl
    · simp only [scavengeList, if_neg hexp] at h
      exact ih _ h

/-- The stop channel of every expired record in the snapshot is signalled by
the scavenger pass. -/
theorem scavengeList_sigs {id : SocketAddr} {c : ClientInfoInner} (now : Nat)
    (hexp : c.ttl < now - c.last) :
    ∀ (cls : List (SocketAddr × ClientInfoInner)) (pub : Store),
      (id, c) ∈ cls →
      ∀ sid ∈ c.stop.toList, sid ∈ (scavengeList now pub cls).2.1 := by
  intro cls
  induction cls with
  | nil => intro pub h; simp at h
  | cons ec rest ih =>
    intro pub hmem sid hsid
    rcases List.mem_cons.1 hmem with heq | hmem2
    · subst heq
      simp only [scavengeList, if_pos hexp, Context.timeout_client]
      exact List.mem_append_left _ hsid
    · rcases ec with ⟨id2, c2⟩
      by_cases hexp2 : c2.ttl < now - c2.last
      · simp only [scavengeList, if_pos hexp2]
        exact List.mem_append_right _ (ih _ hmem2 sid hsid)
      · simp only [scavengeList, if_neg hexp2]
        exact ih _ hmem2 sid hsid

/-- Every expired record of the snapshot is collected for deletion. -/
theorem scavengeList_dels {id : SocketAddr} {c : ClientInfoInner} (now : Nat)
    (hexp : c.ttl < now - c.last) :
    ∀ (cls : List (SocketAddr × ClientInfoInner)) (pub : Store),
      (id, c) ∈ cls → id ∈ (scavengeList now pub cls).2.2 := by
  intro cls
  induction cls with
  | nil => intro pub h; simp at h
  | cons ec rest ih =>
    intro pub hmem
    rcases List.mem_cons.1 hmem with heq | hmem2
    · subst heq
      simp only [scavengeList, if_pos hexp]
      exact List.mem_cons_self _ _
    · rcases ec with ⟨id2, c2⟩
      by_cases hexp2 : c2.ttl < now - c2.last
      · simp only [scavengeList, if_pos hexp2]
        exact List.mem_cons_of_mem _ (ih _ hmem2)
      · simp only [scavengeList, if_neg hexp2]
        exact ih _ hmem2

/-- Only expired records of the snapshot are collected for deletion. -/
theorem scavengeList_dels_sound {id : SocketAddr} (now : Nat) :
    ∀ (cls : List (SocketAddr × ClientInfoInner)) (pub : Store),
      id ∈ (scavengeList now pub cls).2.2 →
      ∃ c, (id, c) ∈ cls ∧ c.ttl < now - c.last := by
  intro cls
  induction cls with
  | nil => intro pub h; simp [scavengeList] at h
  | cons ec rest ih =>
    intro pub h
    rcases ec with ⟨id2, c2⟩
    by_cases hexp2 : c2.ttl < now - c2.last
    · simp only [scavengeList, if_pos hexp2] at h
      rcases List.mem_cons.1 h with heq | h2
      · subst heq; exact ⟨c2, List.mem_cons_self _ _, hexp2⟩
      · rcases ih _ h2 with ⟨c3, hc3, he3⟩
        exact ⟨c3, List.mem_cons_of_mem _ hc3, he3⟩
    · simp only [scavengeList, if_neg hexp2] at h
      rcases ih _ h with ⟨c3, hc3, he3⟩
      exact ⟨c3, List.mem_cons_of_mem _ hc3, he3⟩

/-- After the scavenger pass, no published path of an expired record of the
snapshot still maps to the record address. -/
theorem scavengeList_removes {id : SocketAddr} {c : ClientInfoInner} {p : Path}
    (now : Nat) (hexp : c.ttl < now - c.last) (hp : p ∈ c.published) :
    ∀ (cls : List (SocketAddr × ClientInfoInner)) (pub : Store),
      (id, c) ∈ cls → (p, c.addr) ∉ (scavengeList now pub cls).1 := by
  intro cls
  induction cls with
  | nil => intro pub h; simp at h
  | cons ec rest ih =>
    intro pub hmem hin
    rcases List.mem_cons.1 hmem with heq | hmem2
    · subst heq
      simp only [scavengeList, if_pos hexp, Context.timeout_client] at hin
      have hsub := scavengeList_store_subset now rest _ hin
      exact not_mem_change_unpub_self c.published pub hp hsub
    · rcases ec with ⟨id2, c2⟩
      by_cases hexp2 : c2.ttl < now - c2.last
      · simp only [scavengeList, if_pos hexp2, Context.timeout_client] at hin
        exact ih _ hmem2 hin
      · simp only [scavengeList, if_neg hexp2] at hin
        exact ih _ hmem2 hin

/-- A removed key does not resolve in the registry. -/
theorem lookupClient_removeClient_self
    (cls : List (SocketAddr × ClientInfoInner)) (k : SocketAddr) :
    lookupClient (removeClient cls k) k = none := by
  induction cls with
  | nil => rfl
  | cons e rest ih =>
    by_cases he : e.1 = k
    · have hrm : removeClient (e :: rest) k = removeClient rest k := by
        simp [removeClient, he]
      rw [hrm]; exact ih
    · have hrm : removeClient (e :: rest) k = e :: removeClient rest k := by
        simp [removeClient, he]
      rw [hrm]
      have hskip : lookupClient (e :: removeClient rest k) k =
          lookupClient (removeClient rest k) k := by
        simp [lookupClient, List.find?, he]
      rw [hskip]; exact ih

/-- Removing a different key does not change a lookup. -/
theorem lookupClient_removeClient_ne
    (cls : List (SocketAddr × ClientInfoInner)) (k id : SocketAddr)
    (h : k ≠ id) :
    lookupClient (removeClient cls k) id = lookupClient cls id := by
  induction cls with
  | nil => rfl
  | cons e rest ih =>
    by_cases he : e.1 = k
    · have hid : ¬ e.1 = id := by rw [he]; exact h
      have hrm : removeClient (e :: rest) k = removeClient rest k := by
        simp [removeClient, he]
      have hlk : lookupClient (e :: rest) id = lookupClient rest id := by
        simp [lookupClient, List.find?, hid]
      rw [hrm, hlk]; exact ih
    · have hrm : removeClient (e :: rest) k = e :: removeClient rest k := by
        simp [removeClient, he]
      rw [hrm]
      by_cases hid : e.1 = id
      · simp [lookupClient, List.find?, hid]
      · have h1 : lookupClient (e :: removeClient rest k) id =
            lookupClient (removeClient rest k) id := by
          simp [lookupClient, List.find?, hid]
        have h2 : lookupClient (e :: rest) id = lookupClient rest id := by
          simp [lookupClient, List.find?, hid]
        rw [h1, h2]; exact ih

/-- An absent key stays absent after any removal. -/
theorem lookupClient_none_removeClient
    (cls : List (SocketAddr × ClientInfoInner)) (k id : SocketAddr)
    (h : lookupClient cls id = none) :
    lookupClient (removeClient cls k) id = none := by
  by_cases hk : k = id
  · subst hk; exact lookupClient_removeClient_self cls k
  · rw [lookupClient_removeClient_ne cls k id hk]; exact h

/-- An absent key stays absent after a fold of removals. -/
theorem lookupClient_none_foldl {id : SocketAddr} :
    ∀ (dels : List SocketAddr) (cls : List (SocketAddr × ClientInfoInner)),
      lookupClient cls id = none →
      lookupClient (dels.foldl (fun cs k => removeClient cs k) cls) id = none := by
  intro dels
  induction dels with
  | nil => intro cls h; exact h
  | cons d rest ih =>
    intro cls h
    exact ih _ (lookupClient_none_removeClient cls d id h)

/-- A key in the delete list is absent after the fold of removals. -/
theorem lookupClient_foldl_of_mem {id : SocketAddr} :
    ∀ (dels : List SocketAddr) (cls : List (SocketAddr × ClientInfoInner)),
      id ∈ dels →
      lookupClient (dels.foldl (fun cs k => removeClient cs k) cls) id = none := by
  intro dels
  induction dels with
  | nil => intro cls h; simp at h
  | cons d rest ih =>
    intro cls h
    rcases List.mem_cons.1 h with heq | hmem
    · subst heq
      exact lookupClient_none_foldl rest _ (lookupClient_removeClient_self cls id)
    · exact ih _ hmem

/-- A key outside the delete list resolves unchanged after the fold of
removals. -/
theorem lookupClient_foldl_of_not_mem {id : SocketAddr} :
    ∀ (dels : List SocketAddr) (cls : List (SocketAddr × ClientInfoInner)),
      id ∉ dels →
      lookupClient (dels.foldl (fun cs k => removeClient cs k) cls) id =
        lookupClient cls id := by
  intro dels
  induction dels with
  | nil => intro cls h; rfl
  | cons d rest ih =>
    intro cls h
    have hd : d ≠ id := fun he => h (he ▸ List.mem_cons_self d rest)
    have hrest : id ∉ rest := fun hm => h (List.mem_cons_of_mem d hm)
    rw [List.foldl_cons, ih _ hrest, lookupClient_removeClient_ne cls d id hd]

/-- With duplicate free keys, membership determines the lookup. -/
theorem lookupClient_of_mem {id : SocketAddr} {c : ClientInfoInner} :
    ∀ (cls : List (SocketAddr × ClientInfoInner)),
      (cls.map Prod.fst).Nodup → (id, c) ∈ cls →
      lookupClient cls id = some c := by
  intro cls
  induction cls with
  | nil => intro hnd h; simp at h
  | cons e rest ih =>
    intro hnd hmem
    rw [List.map_cons] at hnd
    rcases List.mem_cons.1 hmem with heq | hmem2
    · subst heq
      simp [lookupClient, List.find?]
    · have hkey : id ∈ rest.map Prod.fst :=
        List.mem_map.2 ⟨(id, c), hmem2, rfl⟩
      have hne : ¬ e.1 = id := by
        intro he
        exact (List.nodup_cons.1 hnd).1 (he ▸ hkey)
      have hnd2 : (rest.map Prod.fst).Nodup := (List.nodup_cons.1 hnd).2
      have hskip : lookupClient (e :: rest) id = lookupClient rest id := by
        simp [lookupClient, List.find?, hne]
      rw [hskip]; exact ih hnd2 hmem2

/-- C4: CONFIRMED (the directory Store is modelled from the spec, its source
being outside src). At a scavenger tick, every snapshot record whose
inactivity strictly exceeds its ttl has its stop channel signalled, every
path of its published set no longer maps to its address in the directory,
and it is removed from the registry; a record with inactivity at most its
ttl is left untouched in the registry. -/
theorem c4_scavenger (now : Nat) (ctx : ContextInner) (id : SocketAddr)
    (c : ClientInfoInner) (hnd : (ctx.clients.map Prod.fst).Nodup)
    (hmem : (id, c) ∈ ctx.clients) :
    ((c.ttl < now - c.last) →
      (∀ sid ∈ c.stop.toList, sid ∈ (scavengeTick now ctx).2) ∧
      (∀ p ∈ c.published,
        c.addr ∉ Store.resolve (scavengeTick now ctx).1.published p) ∧
      lookupClient (scavengeTick now ctx).1.clients id = none) ∧
    ((now - c.last ≤ c.ttl) →
      lookupClient (scavengeTick now ctx).1.clients id = some c) := by
  constructor
  · intro hexp
    refine ⟨?_, ?_, ?_⟩
    · intro sid hsid
      exact scavengeList_sigs now hexp ctx.clients ctx.published hmem sid hsid
    · intro p hp hres
      exact scavengeList_removes now hexp hp ctx.clients ctx.published hmem
        (mem_resolve.1 hres)
    · exact lookupClient_foldl_of_mem _ _
        (scavengeList_dels now hexp ctx.clients ctx.published hmem)
  · intro hfresh
    have hnot : id ∉ (scavengeList now ctx.published ctx.clients).2.2 := by
      intro hin
      rcases scavengeList_dels_sound now ctx.clients ctx.published hin with
        ⟨c2, hc2, he2⟩
      have e1 := lookupClient_of_mem ctx.clients hnd hmem
      have e2 := lookupClient_of_mem ctx.clients hnd hc2
      rw [e1] at e2
      have : c = c2 := by injection e2
      subst this
      omega
    have := lookupClient_foldl_of_not_mem
      (scavengeList now ctx.published ctx.clients).2.2 ctx.clients hnot
    calc lookupClient (scavengeTick now ctx).1.clients id
        = lookupClient ctx.clients id := this
      _ = some c := lookupClient_of_mem ctx.clients hnd hmem

/-- Witness for c4_scavenger: the registry ctxExp holds the single expired
record cExp; at tick instant 1000 its channel 5 is signalled, its path no
longer resolves to its address and the record is deleted. -/
theorem c4_scavenger_witness :
    ((ctxExp.clients.map Prod.fst).Nodup ∧ (addr1, cExp) ∈ ctxExp.clients) ∧
    (((cExp.ttl < 1000 - cExp.last) →
      (∀ sid ∈ cExp.stop.toList, sid ∈ (scavengeTick 1000 ctxExp).2) ∧
      (∀ p ∈ cExp.published,
        cExp.addr ∉ Store.resolve (scavengeTick 1000 ctxExp).1.published p) ∧
      lookupClient (scavengeTick 1000 ctxExp).1.clients addr1 = none) ∧
    ((1000 - cExp.last ≤ cExp.ttl) →
      lookupClient (scavengeTick 1000 ctxExp).1.clients addr1 = some cExp)) :=
  ⟨⟨by decide, by decide⟩,
   c4_scavenger 1000 ctxExp addr1 cExp (by decide) (by decide)⟩

/-- One step of runBatched, fuel positive. -/
theorem runBatched_succ {T : Type} (fuel : Nat) (st : BatchedState)
    (inner : List (InnerPoll T)) :
    runBatched (fuel + 1) st inner =
      match pollNext st inner with
      | (PollOut.ready none, _, _) => []
      | (PollOut.ready (some x), st2, rest) => x :: runBatched fuel st2 rest
      | (PollOut.pending, st2, rest) => runBatched fuel st2 rest := rfl

/-- Polling with an immediately ready item below the bound emits the item. -/
theorem pollNext_item {T : Type} (max cur : Nat) (v : T)
    (rest : List (InnerPoll T)) (h : ¬ max ≤ cur) :
    pollNext ⟨false, max, cur⟩ (InnerPoll.item v :: rest) =
      (PollOut.ready (some (BatchItem.InBatch v)), ⟨false, max, cur + 1⟩, rest) := by
  simp [pollNext, h]

/-- Polling with the bound reached emits EndBatch without touching the inner
stream. -/
theorem pollNext_maxed {T : Type} (max cur : Nat) (inner : List (InnerPoll T))
    (h : max ≤ cur) :
    pollNext ⟨false, max, cur⟩ inner =
      (PollOut.ready (some BatchItem.EndBatch), ⟨false, max, 0⟩, inner) := by
  simp [pollNext, h]

/-- Polling on a pending inner stream with an empty open batch is pending. -/
theorem pollNext_pending_zero {T : Type} (max : Nat) (rest : List (InnerPoll T))
    (h : 0 < max) :
    pollNext ⟨false, max, 0⟩ (InnerPoll.pending :: rest) =
      (PollOut.pending, ⟨false, max, 0⟩, rest) := by
  simp [pollNext, Nat.not_le.2 h]

/-- Polling on a pending inner stream with a nonempty open batch closes the
batch. -/
theorem pollNext_pending_pos {T : Type} (max cur : Nat) (rest : List (InnerPoll T))
    (h : ¬ max ≤ cur) (h0 : cur ≠ 0) :
    pollNext ⟨false, max, cur⟩ (InnerPoll.pending :: rest) =
      (PollOut.ready (some BatchItem.EndBatch), ⟨false, max, 0⟩, rest) := by
  simp [pollNext, h, h0]

/-- Polling at end of stream with an empty open batch ends the stream. -/
theorem pollNext_nil_zero {T : Type} (max : Nat) (h : 0 < max) :
    pollNext (T := T) ⟨false, max, 0⟩ [] =
      (PollOut.ready none, ⟨true, max, 0⟩, []) := by
  simp [pollNext, Nat.not_le.2 h]

/-- Polling at end of stream with a nonempty open batch closes it and marks
the stream ended. -/
theorem pollNext_nil_pos {T : Type} (max cur : Nat) (h : ¬ max ≤ cur)
    (h0 : cur ≠ 0) :
    pollNext (T := T) ⟨false, max, cur⟩ [] =
      (PollOut.ready (some BatchItem.EndBatch), ⟨true, max, 0⟩, []) := by
  simp [pollNext, h, h0]

/-- Polling an ended stream yields none. -/
theorem pollNext_ended {T : Type} (max cur : Nat) (inner : List (InnerPoll T)) :
    pollNext ⟨true, max, cur⟩ inner = (PollOut.ready none, ⟨true, max, cur⟩, inner) := by
  simp [pollNext]

/-- Driving an ended stream emits nothing. -/
theorem runBatched_ended {T : Type} (fuel max cur : Nat)
    (inner : List (InnerPoll T)) :
    runBatched (fuel + 1) ⟨true, max, cur⟩ inner = [] := by
  rw [runBatched_succ, pollNext_ended]

/-- The driver with an item ready below the bound. -/
theorem runBatched_step_item {T : Type} (fuel max cur : Nat) (v : T)
    (rest : List (InnerPoll T)) (h : ¬ max ≤ cur) :
    runBatched (fuel + 1) ⟨false, max, cur⟩ (InnerPoll.item v :: rest) =
      BatchItem.InBatch v :: runBatched fuel ⟨false, max, cur + 1⟩ rest := by
  rw [runBatched_succ, pollNext_item max cur v rest h]

/-- The driver at the bound. -/
theorem runBatched_step_maxed {T : Type} (fuel max cur : Nat)
    (inner : List (InnerPoll T)) (h : max ≤ cur) :
    runBatched (fuel + 1) ⟨false, max, cur⟩ inner =
      BatchItem.EndBatch :: runBatched fuel ⟨false, max, 0⟩ inner := by
  rw [runBatched_succ, pollNext_maxed max cur inner h]

/-- The driver over a pending poll with an empty open batch just repolls. -/
theorem runBatched_step_pending_zero {T : Type} (fuel max : Nat)
    (rest : List (InnerPoll T)) (h : 0 < max) :
    runBatched (fuel + 1) ⟨false, max, 0⟩ (InnerPoll.pending :: rest) =
      runBatched fuel ⟨false, max, 0⟩ rest := by
  rw [runBatched_succ, pollNext_pending_zero max rest h]

/-- The driver over a pending poll with a nonempty open batch closes it. -/
theorem runBatched_step_pending_pos {T : Type} (fuel max cur : Nat)
    (rest : List (InnerPoll T)) (h : ¬ max ≤ cur) (h0 : cur ≠ 0) :
    runBatched (fuel + 1) ⟨false, max, cur⟩ (InnerPoll.pending :: rest) =
      BatchItem.EndBatch :: runBatched fuel ⟨false, max, 0⟩ rest := by
  rw [runBatched_succ, pollNext_pending_pos max cur rest h h0]

/-- The driver at end of stream with an empty open batch stops. -/
theorem runBatched_step_nil_zero {T : Type} (fuel max : Nat) (h : 0 < max) :
    runBatched (T := T) (fuel + 1) ⟨false, max, 0⟩ [] = [] := by
  rw [runBatched_succ, pollNext_nil_zero max h]

/-- The driver at end of stream with a nonempty open batch closes it and
stops on the next poll. -/
theorem runBatched_step_nil_pos {T : Type} (fuel max cur : Nat) (h : ¬ max ≤ cur)
    (h0 : cur ≠ 0) :
    runBatched (T := T) (fuel + 1 + 1) ⟨false, max, cur⟩ [] =
      [BatchItem.EndBatch] := by
  rw [runBatched_succ, pollNext_nil_pos max cur h h0]
  show BatchItem.EndBatch :: runBatched (fuel + 1) ⟨true, max, 0⟩ [] =
    [BatchItem.EndBatch]
  rw [runBatched_ended]

/-- The driver agrees with the structural reference run when the batch bound
exceeds the open count and the fuel covers the trace. -/
theorem runBatched_eq_specRun {T : Type} :
    ∀ (inner : List (InnerPoll T)) (cur max fuel : Nat),
      cur < max → 2 * inner.length + 2 ≤ fuel →
      runBatched fuel ⟨false, max, cur⟩ inner = specRun max cur inner := by
  intro inner
  induction inner with
  | nil =>
    intro cur max fuel hcur hfuel
    obtain ⟨f1, rfl⟩ : ∃ f1, fuel = f1 + 1 := ⟨fuel - 1, by omega⟩
    by_cases h0 : cur = 0
    · subst h0
      rw [runBatched_step_nil_zero f1 max (by omega)]
      simp [specRun]
    · obtain ⟨f2, rfl⟩ : ∃ f2, f1 = f2 + 1 := ⟨f1 - 1, by omega⟩
      rw [runBatched_step_nil_pos f2 max cur (Nat.not_le.2 hcur) h0]
      simp [specRun, h0]
  | cons x rest ih =>
    intro cur max fuel hcur hfuel
    simp only [List.length_cons] at hfuel
    obtain ⟨f1, rfl⟩ : ∃ f1, fuel = f1 + 1 := ⟨fuel - 1, by omega⟩
    cases x with
    | item v =>
      rw [runBatched_step_item f1 max cur v rest (Nat.not_le.2 hcur)]
      by_cases hm : max ≤ cur + 1
      · obtain ⟨f2, rfl⟩ : ∃ f2, f1 = f2 + 1 := ⟨f1 - 1, by omega⟩
        rw [runBatched_step_maxed f2 max (cur + 1) rest hm]
        rw [ih 0 max f2 (by omega) (by omega)]
        simp [specRun, hm]
      · rw [ih (cur + 1) max f1 (by omega) (by omega)]
        simp [specRun, hm]
    | pending =>
      by_cases h0 : cur = 0
      · subst h0
        rw [runBatched_step_pending_zero f1 max rest (by omega)]
        rw [ih 0 max f1 hcur (by omega)]
        simp [specRun]
      · rw [runBatched_step_pending_pos f1 max cur rest (Nat.not_le.2 hcur) h0]
        rw [ih 0 max f1 (by omega) (by omega)]
        simp [specRun, h0]

/-- The reference run emits exactly the items of the trace, in order. -/
theorem itemsOf_specRun {T : Type} (max : Nat) :
    ∀ (l : List (InnerPoll T)) (cur : Nat),
      itemsOf (specRun max cur l) = innerItems l := by
  intro l
  induction l with
  | nil =>
    intro cur
    by_cases h0 : cur = 0 <;> simp [specRun, h0, itemsOf, innerItems]
  | cons x rest ih =>
    intro cur
    cases x with
    | item v =>
      by_cases hm : max ≤ cur + 1 <;>
        simp [specRun, hm, itemsOf, innerItems, ih]
    | pending =>
      by_cases h0 : cur = 0 <;>
        simp [specRun, h0, itemsOf, innerItems, ih]

/-- Every batch closed by the reference run holds between one and max
items. -/
theorem batchSizes_specRun {T : Type} (max : Nat) :
    ∀ (l : List (InnerPoll T)) (cur : Nat), cur < max →
      ∀ n ∈ batchSizes cur (specRun max cur l), 1 ≤ n ∧ n ≤ max := by
  intro l
  induction l with
  | nil =>
    intro cur hcur n hn
    by_cases h0 : cur = 0
    · subst h0; simp [specRun, batchSizes] at hn
    · simp [specRun, h0, batchSizes] at hn
      subst hn
      exact ⟨by omega, by omega⟩
  | cons x rest ih =>
    intro cur hcur n hn
    cases x with
    | item v =>
      by_cases hm : max ≤ cur + 1
      · simp only [specRun, if_pos hm, batchSizes] at hn
        rcases List.mem_cons.1 hn with heq | hn2
        · subst heq; exact ⟨by omega, by omega⟩
        · exact ih 0 (by omega) n hn2
      · simp only [specRun, if_neg hm, batchSizes] at hn
        exact ih (cur + 1) (by omega) n hn
    | pending =>
      by_cases h0 : cur = 0
      · subst h0
        simp only [specRun, if_pos rfl] at hn
        exact ih 0 hcur n hn
      · simp only [specRun, if_neg h0, batchSizes] at hn
        rcases List.mem_cons.1 hn with heq | hn2
        · subst heq; exact ⟨by omega, by omega⟩
        · exact ih 0 (by omega) n hn2

/-- The closed batches of the reference run partition all items: their sizes
sum to the open count plus the number of items of the trace. -/
theorem batchSizes_sum_specRun {T : Type} (max : Nat) :
    ∀ (l : List (InnerPoll T)) (cur : Nat),
      (batchSizes cur (specRun max cur l)).sum = cur + (innerItems l).length := by
  intro l
  induction l with
  | nil =>
    intro cur
    by_cases h0 : cur = 0 <;> simp [specRun, h0, batchSizes, innerItems]
  | cons x rest ih =>
    intro cur
    cases x with
    | item v =>
      by_cases hm : max ≤ cur + 1
      · simp only [specRun, if_pos hm, batchSizes, List.sum_cons, ih 0,
          innerItems, List.length_cons]
        omega
      · simp only [specRun, if_neg hm, batchSizes, ih (cur + 1),
          innerItems, List.length_cons]
        omega
    | pending =>
      by_cases h0 : cur = 0
      · subst h0
        simp only [specRun, if_pos rfl, innerItems]
        exact ih 0
      · simp only [specRun, if_neg h0, batchSizes, List.sum_cons, ih 0,
          innerItems]
        omega

/-- C9: CONFIRMED. For every inner poll trace and every bound max of at
least one (with enough fuel to drive the stream to its end), the batched
stream emits exactly the items of the inner stream, unchanged and in order;
every batch closed by an EndBatch marker holds at least one and at most max
items; and the closed batches cover all items (their sizes sum to the item
count), batches being closed exactly at a pending poll, at end of stream, or
on reaching the bound, as the reference run makes explicit. -/
theorem c9_batched {T : Type} (max fuel : Nat) (inner : List (InnerPoll T))
    (hmax : 1 ≤ max) (hfuel : 2 * inner.length + 2 ≤ fuel) :
    itemsOf (runBatched fuel ⟨false, max, 0⟩ inner) = innerItems inner ∧
    (∀ n ∈ batchSizes 0 (runBatched fuel ⟨false, max, 0⟩ inner),
      1 ≤ n ∧ n ≤ max) ∧
    (batchSizes 0 (runBatched fuel ⟨false, max, 0⟩ inner)).sum =
      (innerItems inner).length := by
  have heq := runBatched_eq_specRun inner 0 max fuel (by omega) hfuel
  rw [heq]
  refine ⟨itemsOf_specRun max inner 0, batchSizes_specRun max inner 0 (by omega), ?_⟩
  simpa using batchSizes_sum_specRun max inner 0

/-- Witness for c9_batched: bound 2 over the trace item 1, item 2, item 3,
pending, item 4 with fuel 12. -/
theorem c9_batched_witness :
    (1 ≤ 2 ∧ 2 * ([InnerPoll.item 1, InnerPoll.item 2, InnerPoll.item 3,
      InnerPoll.pending, InnerPoll.item 4] : List (InnerPoll Nat)).length + 2 ≤ 12) ∧
    (itemsOf (runBatched 12 ⟨false, 2, 0⟩
        [InnerPoll.item 1, InnerPoll.item 2, InnerPoll.item 3,
         InnerPoll.pending, InnerPoll.item 4]) =
      innerItems [InnerPoll.item 1, InnerPoll.item 2, InnerPoll.item 3,
        InnerPoll.pending, InnerPoll.item 4] ∧
    (∀ n ∈ batchSizes 0 (runBatched 12 ⟨false, 2, 0⟩
        [InnerPoll.item 1, InnerPoll.item 2, InnerPoll.item 3,
         InnerPoll.pending, InnerPoll.item 4]), 1 ≤ n ∧ n ≤ 2) ∧
    (batchSizes 0 (runBatched 12 ⟨false, 2, 0⟩
        [InnerPoll.item 1, InnerPoll.item 2, InnerPoll.item 3,
         InnerPoll.pending, InnerPoll.item 4])).sum =
      (innerItems [InnerPoll.item 1, InnerPoll.item 2, InnerPoll.item 3,
        InnerPoll.pending, InnerPoll.item 4]).length) :=
  ⟨⟨by decide, by decide⟩,
   c9_batched 2 12 [InnerPoll.item 1, InnerPoll.item 2, InnerPoll.item 3,
     InnerPoll.pending, InnerPoll.item 4] (by decide) (by decide)⟩

end Netidx
